import Mathlib

set_option maxHeartbeats 1000000
set_option maxRecDepth 100000

/-!
Shallow embedding of `src/openssl-privsep.c` (privilege separation for RSA
private-key operations).  Byte memory is modelled as `List Nat`; the machine
word (`size_t`) is 8 bytes wide, matching the 64-bit ABI the wire format
assumes.  Fallible C functions return `Option`/pairs; fatal aborts (`dief`)
are modelled as `none` where they matter to a claim.
-/

/-- Read `len` bytes of the allocation `l` starting at offset `ofs` (a memcpy out). -/
def listRead (l : List Nat) (ofs len : Nat) : List Nat := (l.drop ofs).take len

/-- Overwrite the bytes of the allocation `l` at offset `ofs` with `d` (a memcpy in). -/
def listWrite (l : List Nat) (ofs : Nat) (d : List Nat) : List Nat :=
  l.take ofs ++ d ++ l.drop (ofs + d.length)

/-- `struct expbuf_t`: an owned byte region with `start`/`end` offsets relative to
`buf` (the C code stores pointers; offsets are the fork-safe view of the same data). -/
structure expbuf_t where
  buf : List Nat
  start : Nat
  end_ : Nat
  capacity : Nat
deriving DecidableEq

/-- The zero-initialised buffer `struct expbuf_t buf = {};`. -/
def emptyExpbuf : expbuf_t := { buf := [], start := 0, end_ := 0, capacity := 0 }

/-- `expbuf_size`: `buf->end - buf->start`. -/
def expbuf_size (b : expbuf_t) : Nat := b.end_ - b.start

/-- The live payload `[start, end)` of a buffer. -/
def expbuf_live (b : expbuf_t) : List Nat := listRead b.buf b.start (expbuf_size b)

/-- The expanding-buffer invariant: `base ≤ start ≤ end ≤ base + capacity`
(offsets are relative to base, so `0 ≤ start` is implicit), together with the
fact that the allocation really has `capacity` bytes. -/
def expbuf_wf (b : expbuf_t) : Prop :=
  b.start ≤ b.end_ ∧ b.end_ ≤ b.capacity ∧ b.buf.length = b.capacity

instance (b : expbuf_t) : Decidable (expbuf_wf b) :=
  inferInstanceAs (Decidable (_ ∧ _ ∧ _))

/-- `OPENSSL_cleanse(p, n)`: the first `n` bytes of the allocation are zeroed. -/
def OPENSSL_cleanse (mem : List Nat) (n : Nat) : List Nat :=
  List.replicate n 0 ++ mem.drop n

/-- The final contents of the memory that backed `b`, as observed after
`expbuf_dispose` ran its `OPENSSL_cleanse(buf->buf, buf->capacity)` and before
`free` recycles it. -/
def expbuf_dispose_backing (b : expbuf_t) : List Nat :=
  if b.capacity ≠ 0 then OPENSSL_cleanse b.buf b.capacity else b.buf

/-- `expbuf_dispose`: cleanse, `free(buf->buf)`, `memset(buf, 0, sizeof(*buf))`.
The record is left in the all-zero state. -/
def expbuf_dispose (_b : expbuf_t) : expbuf_t := emptyExpbuf

/-- The capacity-doubling loop of `expbuf_reserve`, written with explicit fuel so
that the definition stays structurally recursive; `grow_capacity` below supplies
fuel that provably suffices (the capacity at least doubles every step). -/
def grow_capacity_fuel : Nat → Nat → Nat → Nat → Nat
  | 0, capacity, _, _ => capacity
  | fuel + 1, capacity, end_, extra =>
    if capacity - end_ < extra then grow_capacity_fuel fuel (capacity * 2) end_ extra
    else capacity

/-- `while (buf->buf + buf->capacity - buf->end < extra) buf->capacity *= 2;` -/
def grow_capacity (capacity end_ extra : Nat) : Nat :=
  grow_capacity_fuel (end_ + extra) capacity end_ extra

/-- `expbuf_reserve`: ensure `end + extra ≤ base + capacity`, doubling the
capacity from an initial 4096 and reallocating if needed.  `realloc` preserves
the old contents; the fresh tail is uninitialised (modelled as zero bytes, a
value no verified operation ever reads before writing). -/
def expbuf_reserve (b : expbuf_t) (extra : Nat) : expbuf_t :=
  if extra ≤ b.capacity - b.end_ then b
  else
    let cap := grow_capacity (if b.capacity = 0 then 4096 else b.capacity) b.end_ extra
    { b with capacity := cap, buf := b.buf ++ List.replicate (cap - b.buf.length) 0 }

/-- The common body of every `expbuf_push_*`: reserve `d.length` extra bytes,
memcpy `d` to `end`, advance `end`. -/
def expbuf_push_raw (b : expbuf_t) (d : List Nat) : expbuf_t :=
  let r := expbuf_reserve b d.length
  { r with buf := listWrite r.buf r.end_ d, end_ := r.end_ + d.length }

/-- The 8 bytes of the `size_t` `v` in (little-endian) host byte order. -/
def numToBytes (v : Nat) : List Nat := (List.range 8).map fun i => v / 256 ^ i % 256

/-- Reassemble a `size_t` from its in-memory bytes. -/
def bytesToNum (l : List Nat) : Nat := l.foldr (fun b acc => b + 256 * acc) 0

/-- `expbuf_push_num`: append the `sizeof(size_t)` bytes of `v`. -/
def expbuf_push_num (b : expbuf_t) (v : Nat) : expbuf_t := expbuf_push_raw b (numToBytes v)

/-- `expbuf_push_str`: append `strlen(s) + 1` bytes, i.e. the bytes of `s` up to
its first NUL, plus the terminating NUL. -/
def expbuf_push_str (b : expbuf_t) (s : List Nat) : expbuf_t :=
  expbuf_push_raw b (s.takeWhile (fun c => c != 0) ++ [0])

/-- `expbuf_push_bytes(buf, p, l)` with `l = p.length`: push the length as a
number, then the raw bytes. -/
def expbuf_push_bytes (b : expbuf_t) (p : List Nat) : expbuf_t :=
  expbuf_push_raw (expbuf_push_num b p.length) p

/-- `expbuf_shift_num`: fail (leaving the buffer untouched) if fewer than
`sizeof(size_t)` live bytes remain, else consume 8 bytes from `start`. -/
def expbuf_shift_num (b : expbuf_t) : Option Nat × expbuf_t :=
  if expbuf_size b < 8 then (none, b)
  else (some (bytesToNum (listRead b.buf b.start 8)), { b with start := b.start + 8 })

/-- `memchr(p, 0, n)` over a byte list: offset of the first NUL, if any. -/
def memchr0 : List Nat → Option Nat
  | [] => none
  | c :: rest => if c = 0 then some 0 else (memchr0 rest).map (· + 1)

/-- `expbuf_shift_str`: find the first NUL in the live region; on success the
returned string is the bytes before it and `start` moves past the NUL. -/
def expbuf_shift_str (b : expbuf_t) : Option (List Nat) × expbuf_t :=
  match memchr0 (expbuf_live b) with
  | none => (none, b)
  | some i => (some (listRead b.buf b.start i), { b with start := b.start + i + 1 })

/-- `expbuf_shift_bytes`: shift the length prefix with `expbuf_shift_num` (which
already advances `start` on success), then fail if fewer than that many live
bytes remain — note the failure return leaves `start` advanced past the prefix. -/
def expbuf_shift_bytes (b : expbuf_t) : Option (List Nat) × expbuf_t :=
  match expbuf_shift_num b with
  | (none, b1) => (none, b1)
  | (some l, b1) =>
    if expbuf_size b1 < l then (none, b1)
    else (some (listRead b1.buf b1.start l), { b1 with start := b1.start + l })

/-- The transport of one frame: `expbuf_write` sends the live bytes, and the
peer's `expbuf_read` reserves room and appends them at `end` of its (fresh)
buffer — exactly a raw push of the payload onto an empty buffer. -/
def expbuf_deliver (b : expbuf_t) : expbuf_t := expbuf_push_raw emptyExpbuf (expbuf_live b)

/-- A wire atom: platform-word number, NUL-terminated string, or
length-prefixed byte blob. -/
inductive Atom where
  | num (v : Nat)
  | str (s : List Nat)
  | bytes (p : List Nat)
deriving DecidableEq

/-- The bytes an atom contributes to a buffer when pushed. -/
def encodeAtom : Atom → List Nat
  | Atom.num v => numToBytes v
  | Atom.str s => s ++ [0]
  | Atom.bytes p => numToBytes p.length ++ p

/-- Concatenated encoding of a sequence of atoms. -/
def encodeAtoms : List Atom → List Nat
  | [] => []
  | a :: as => encodeAtom a ++ encodeAtoms as

/-- An atom a C caller can actually pass: numbers are `size_t` values, strings
have no embedded NUL, blob lengths are `size_t` values. -/
def validAtom : Atom → Bool
  | Atom.num v => v < 2 ^ 64
  | Atom.str s => (0:Nat) ∉ s
  | Atom.bytes p => p.length < 2 ^ 64

/-- Push one atom with the matching `expbuf_push_*` operation. -/
def pushAtom (b : expbuf_t) : Atom → expbuf_t
  | Atom.num v => expbuf_push_num b v
  | Atom.str s => expbuf_push_str b s
  | Atom.bytes p => expbuf_push_bytes b p

/-- Push a sequence of atoms in order. -/
def pushAtoms (b : expbuf_t) (as : List Atom) : expbuf_t := as.foldl pushAtom b

/-- Shift one atom with the `expbuf_shift_*` operation matching the given
atom's kind (the kind schedule comes from the command's schema). -/
def shiftAtom (b : expbuf_t) : Atom → Option Atom × expbuf_t
  | Atom.num _ =>
    match expbuf_shift_num b with
    | (none, b1) => (none, b1)
    | (some v, b1) => (some (Atom.num v), b1)
  | Atom.str _ =>
    match expbuf_shift_str b with
    | (none, b1) => (none, b1)
    | (some s, b1) => (some (Atom.str s), b1)
  | Atom.bytes _ =>
    match expbuf_shift_bytes b with
    | (none, b1) => (none, b1)
    | (some p, b1) => (some (Atom.bytes p), b1)

/-- Shift a sequence of atoms back, following the kind schedule `as`;
fails as soon as one shift fails. -/
def shiftAtoms : expbuf_t → List Atom → Option (List Atom) × expbuf_t
  | b, [] => (some [], b)
  | b, a :: as =>
    match shiftAtom b a with
    | (none, b1) => (none, b1)
    | (some x, b1) =>
      match shiftAtoms b1 as with
      | (none, b2) => (none, b2)
      | (some xs, b2) => (some (x :: xs), b2)

/-- Buffers reachable from the zero-initialised buffer by any sequence of
reserve, push, shift and dispose operations. -/
inductive Reachable : expbuf_t → Prop
  | empty : Reachable emptyExpbuf
  | reserve (b : expbuf_t) (e : Nat) : Reachable b → Reachable (expbuf_reserve b e)
  | push_num (b : expbuf_t) (v : Nat) : Reachable b → Reachable (expbuf_push_num b v)
  | push_str (b : expbuf_t) (s : List Nat) : Reachable b → Reachable (expbuf_push_str b s)
  | push_bytes (b : expbuf_t) (p : List Nat) : Reachable b → Reachable (expbuf_push_bytes b p)
  | shift_num (b : expbuf_t) : Reachable b → Reachable (expbuf_shift_num b).2
  | shift_str (b : expbuf_t) : Reachable b → Reachable (expbuf_shift_str b).2
  | shift_bytes (b : expbuf_t) : Reachable b → Reachable (expbuf_shift_bytes b).2
  | dispose (b : expbuf_t) : Reachable b → Reachable (expbuf_dispose b)

/-- An RSA key held by the daemon, viewed through what the stubs use of it:
its identity and the uppercase-hex public components `BN_bn2hex` reports. -/
structure RSAKey where
  e_hex : List Nat
  n_hex : List Nat
deriving DecidableEq

/-- Result of the unchecked array access `daemon_rsa_keys.keys[key_index]`:
an in-bounds slot yields the stored key; an index at or past
`daemon_rsa_keys.size` reads outside the allocation (undefined behaviour —
with an empty registry `keys` is even NULL). -/
inductive ReadResult where
  | ok (rsa : RSAKey)
  | oob
deriving DecidableEq

/-- `daemon_get_rsa`: lock, read `keys[key_index]` (no bounds check in the
source), unlock. -/
def daemon_get_rsa (keys : List RSAKey) (key_index : Nat) : ReadResult :=
  match keys[key_index]? with
  | some rsa => ReadResult.ok rsa
  | none => ReadResult.oob

/-- `daemon_set_rsa`: lock, grow the table by one, store the key, unlock,
return the new index (`size` before the increment). -/
def daemon_set_rsa (keys : List RSAKey) (rsa : RSAKey) : Nat × List RSAKey :=
  (keys.length, keys ++ [rsa])

/-- The two real RSA private-key primitives, as black boxes: given
`(flen, from, rsa, padding)` each returns the C return value and the bytes it
wrote into the caller's output array. -/
structure RSAPrimitives where
  RSA_private_encrypt : Nat → List Nat → RSAKey → Nat → Int × List Nat
  RSA_private_decrypt : Nat → List Nat → RSAKey → Nat → Int × List Nat

/-- Conversion of a C `int` to `size_t` (as in `expbuf_push_num(buf, ret)`). -/
def intToSizeT (i : Int) : Nat := (i % (2 ^ 64 : Int)).toNat

/-- `priv_encdec_stub`: parse `from:bytes, key_index:num, padding:num`, look the
key up, run the primitive, dispose the request and push `ret:num, to:bytes`.
Mirrors the source faithfully, including two of its quirks: the body invokes
`RSA_private_encrypt` directly, ignoring the `func` argument it was handed, and
the response blob length is `ret == 1 ? flen : 0`.  The 4 KiB `to` scratch
array is uninitialised (modelled as zeros).  Result: `none` when the registry
read is undefined behaviour, otherwise `some` of the C return value (`-1` on a
parse failure, which drops the connection) and the buffer. -/
def priv_encdec_stub (prims : RSAPrimitives)
    (_func : Nat → List Nat → RSAKey → Nat → Int × List Nat)
    (keys : List RSAKey) (buf : expbuf_t) : Option (Int × expbuf_t) :=
  match expbuf_shift_bytes buf with
  | (none, b1) => some (-1, b1)
  | (some from_, b1) =>
    match expbuf_shift_num b1 with
    | (none, b2) => some (-1, b2)
    | (some key_index, b2) =>
      match expbuf_shift_num b2 with
      | (none, b3) => some (-1, b3)
      | (some padding, b3) =>
        match daemon_get_rsa keys key_index with
        | ReadResult.oob => none
        | ReadResult.ok rsa =>
          let r := prims.RSA_private_encrypt from_.length from_ rsa padding
          let toScratch := listWrite (List.replicate 4096 0) 0 r.2
          let b4 := expbuf_dispose b3
          let b5 := expbuf_push_num b4 (intToSizeT r.1)
          let b6 := expbuf_push_bytes b5 (listRead toScratch 0 (if r.1 = 1 then from_.length else 0))
          some (0, b6)

/-- `priv_enc_stub`: dispatch with `func = RSA_private_encrypt`. -/
def priv_enc_stub (prims : RSAPrimitives) (keys : List RSAKey) (buf : expbuf_t) :
    Option (Int × expbuf_t) :=
  priv_encdec_stub prims prims.RSA_private_encrypt keys buf

/-- `priv_dec_stub`: dispatch with `func = RSA_private_decrypt`. -/
def priv_dec_stub (prims : RSAPrimitives) (keys : List RSAKey) (buf : expbuf_t) :
    Option (Int × expbuf_t) :=
  priv_encdec_stub prims prims.RSA_private_decrypt keys buf

/-- Outcome of `fopen` + `PEM_read_RSAPrivateKey` on a path, as seen by
`load_key_stub`: the file would not open (with the `strerror` text), the PEM
did not parse, or a key was produced. -/
inductive PemResult where
  | openFailed (strerror_msg : List Nat)
  | parseFailed
  | ok (rsa : RSAKey)

/-- Size of the caller-supplied error buffer.  Modelled from the spec: the
header `openssl-privsep.h` defining `OPENSSL_PRIVSEP_ERRBUF_SIZE` is not under
`src/`; the spec only requires a bounded length, so a concrete bound of 256 is
used (every claim below is insensitive to the exact positive value). -/
def OPENSSL_PRIVSEP_ERRBUF_SIZE : Nat := 256

/-- The daemon's in-band PEM-parse error message. -/
def failed_to_parse_msg : List Nat := ("failed to parse the private key".toList).map Char.toNat

/-- The parent's message when the local TLS context rejects the key. -/
def ssl_use_privatekey_failed_msg : List Nat :=
  ("SSL_CTX_use_PrivateKey failed".toList).map Char.toNat

/-- The `load_key` command token. -/
def load_key_cmd : List Nat := ("load_key".toList).map Char.toNat

/-- `SIZE_MAX` on the 64-bit ABI. -/
def SIZE_MAX : Nat := 2 ^ 64 - 1

/-- The `Respond:` tail of `load_key_stub`: dispose the request buffer and push
`ok:num, handle:num, e:str, n:str, err:str`. -/
def load_key_respond (ok : Bool) (key_index : Nat) (estr nstr errbuf : List Nat)
    (b : expbuf_t) : expbuf_t :=
  let b2 := expbuf_dispose b
  let b3 := expbuf_push_num b2 (if ok then 1 else 0)
  let b4 := expbuf_push_num b3 key_index
  let b5 := expbuf_push_str b4 estr
  let b6 := expbuf_push_str b5 nstr
  expbuf_push_str b6 errbuf

/-- `load_key_stub`: parse the path (a parse failure returns `-1` and drops the
connection), open and parse the PEM file — outcome given by `fsys` — register a
parsed key with `daemon_set_rsa`, and respond.  On failure `ok = 0`,
`handle = SIZE_MAX`, the hex strings are empty and `err` carries the reason
(`strerror_r` writes at most `OPENSSL_PRIVSEP_ERRBUF_SIZE` bytes including the
NUL).  Returns `(C return value, response buffer, new registry)`. -/
def load_key_stub (fsys : List Nat → PemResult) (keys : List RSAKey) (buf : expbuf_t) :
    Int × expbuf_t × List RSAKey :=
  match expbuf_shift_str buf with
  | (none, b1) => (-1, b1, keys)
  | (some fn, b1) =>
    match fsys fn with
    | PemResult.openFailed em =>
      (0, load_key_respond false SIZE_MAX [] []
            (em.take (OPENSSL_PRIVSEP_ERRBUF_SIZE - 1)) b1, keys)
    | PemResult.parseFailed =>
      (0, load_key_respond false SIZE_MAX [] [] failed_to_parse_msg b1, keys)
    | PemResult.ok rsa =>
      (0, load_key_respond true (daemon_set_rsa keys rsa).1 rsa.e_hex rsa.n_hex [] b1,
       (daemon_set_rsa keys rsa).2)

/-- The parent half of `openssl_privsep_load_private_key_file` from the point
where the daemon's response frame has been read: parse
`ret:num, handle:num, e:str, n:str, err:str` (a parse failure is `dief`,
modelled `none`), then return `-1` copying `err` into the caller's buffer when
the daemon reported failure; otherwise install the proxy key, returning
`(int)ret = 1` on success and `0` (with a message) when
`SSL_CTX_use_PrivateKey` rejects it.  `some (code, errbuf-bytes-written)`. -/
def openssl_privsep_load_private_key_file (respBuf : expbuf_t)
    (ssl_ctx_use_privatekey_ok : Bool) : Option (Int × List Nat) :=
  match expbuf_shift_num respBuf with
  | (none, _) => none
  | (some ret, b1) =>
    match expbuf_shift_num b1 with
    | (none, _) => none
    | (some _key_index, b2) =>
      match expbuf_shift_str b2 with
      | (none, _) => none
      | (some _estr, b3) =>
        match expbuf_shift_str b3 with
        | (none, _) => none
        | (some _nstr, b4) =>
          match expbuf_shift_str b4 with
          | (none, _) => none
          | (some errstr, _) =>
            if ret ≠ 1 then some (-1, errstr.take (OPENSSL_PRIVSEP_ERRBUF_SIZE - 1))
            else if ssl_ctx_use_privatekey_ok then some (1, [])
            else some (0, ssl_use_privatekey_failed_msg.take (OPENSSL_PRIVSEP_ERRBUF_SIZE - 1))

/-- One complete `load_key` exchange: the parent pushes
`"load_key":str, path:str` and writes the frame; the daemon's connection thread
shifts the command token, dispatches `load_key_stub`, and writes the response
frame back (a stub failure drops the connection, which is fatal — `dief` — for
the waiting parent, modelled `none`).  Returns the parent's result and the
daemon's registry afterwards. -/
def load_key_exchange (fsys : List Nat → PemResult) (keys : List RSAKey) (fn : List Nat)
    (ssl_ok : Bool) : Option (Int × List Nat) × List RSAKey :=
  let req := expbuf_push_str (expbuf_push_str emptyExpbuf load_key_cmd) fn
  let dbuf := expbuf_deliver req
  match expbuf_shift_str dbuf with
  | (none, _) => (none, keys)
  | (some cmd, d1) =>
    if cmd = load_key_cmd then
      let r := load_key_stub fsys keys d1
      if r.1 = 0 then
        (openssl_privsep_load_private_key_file (expbuf_deliver r.2.1) ssl_ok, r.2.2)
      else (none, r.2.2)
    else (none, keys)

/-- Concrete primitives whose encrypt and decrypt halves are distinguishable
by their return values (encrypt returns 11, decrypt returns 22). -/
def c1_prims : RSAPrimitives :=
  { RSA_private_encrypt := fun _ _ _ _ => (11, [7, 7, 7])
    RSA_private_decrypt := fun _ _ _ _ => (22, [9, 9]) }

/-- A registered key for the C1 scenario. -/
def c1_key : RSAKey := { e_hex := [65], n_hex := [66] }

/-- A well-formed `priv_dec` request body (command token already consumed):
`from = [5]`, `handle = 0` (valid — one key is registered), `padding = 3`. -/
def c1_req : expbuf_t :=
  expbuf_push_num (expbuf_push_num (expbuf_push_bytes emptyExpbuf [5]) 0) 3

/-- Concrete primitives for the C2 scenario: a successful private-encrypt of a
256-byte input returning `ret = 256` with 256 output bytes. -/
def c2_prims : RSAPrimitives :=
  { RSA_private_encrypt := fun _ _ _ _ => (256, List.replicate 256 9)
    RSA_private_decrypt := fun _ _ _ _ => (-1, []) }

def c2_key : RSAKey := { e_hex := [49], n_hex := [50] }

def c2_from : List Nat := List.replicate 256 2

/-- A well-formed `priv_enc` request body: 256 input bytes, handle 0, padding 1. -/
def c2_req : expbuf_t :=
  expbuf_push_num (expbuf_push_num (expbuf_push_bytes emptyExpbuf c2_from) 0) 1

def c4_key : RSAKey := { e_hex := [51], n_hex := [52] }

def c4_prims : RSAPrimitives :=
  { RSA_private_encrypt := fun _ _ _ _ => (7, [1])
    RSA_private_decrypt := fun _ _ _ _ => (8, [2]) }

/-- A parseable `priv_dec` request whose handle (1) is out of range for a
registry holding a single key (slot 0). -/
def c4_req : expbuf_t :=
  expbuf_push_num (expbuf_push_num (expbuf_push_bytes emptyExpbuf [5]) 1) 3

def c3_key : RSAKey := { e_hex := [65], n_hex := [66] }

/-- A NUL-free key-file path for the C3 scenario ("a"). -/
def c3_fn : List Nat := [97]

def c5_key : RSAKey := { e_hex := [67], n_hex := [68] }

/-- A NUL-free key-file path for the C5 scenario ("b"). -/
def c5_fn : List Nat := [98]

/-! ## Helper lemmas: list memory and the buffer invariant -/

theorem expbuf_wf_empty : expbuf_wf emptyExpbuf := ⟨Nat.le_refl 0, Nat.le_refl 0, rfl⟩

theorem expbuf_live_empty : expbuf_live emptyExpbuf = [] := rfl

theorem expbuf_live_length (b : expbuf_t) (h : expbuf_wf b) :
    (expbuf_live b).length = expbuf_size b := by
  obtain ⟨h1, h2, h3⟩ := h
  simp only [expbuf_live, listRead, expbuf_size, List.length_take, List.length_drop]
  omega

theorem expbuf_live_advance (b : expbuf_t) (k : Nat) (h : expbuf_wf b)
    (_hk : b.start + k ≤ b.end_) :
    expbuf_live { b with start := b.start + k } = (expbuf_live b).drop k := by
  obtain ⟨h1, h2, h3⟩ := h
  simp only [expbuf_live, listRead, expbuf_size]
  rw [List.drop_take, List.drop_drop]
  congr 1
  omega

theorem expbuf_wf_advance (b : expbuf_t) (k : Nat) (h : expbuf_wf b)
    (hk : b.start + k ≤ b.end_) : expbuf_wf { b with start := b.start + k } := by
  obtain ⟨h1, h2, h3⟩ := h
  exact ⟨hk, h2, h3⟩

theorem listWrite_length (l d : List Nat) (ofs : Nat) (h : ofs + d.length ≤ l.length) :
    (listWrite l ofs d).length = l.length := by
  simp [listWrite]
  omega

theorem listWrite_live (l d : List Nat) (s e : Nat) (hse : s ≤ e) (hel : e ≤ l.length)
    (_hcap : e + d.length ≤ l.length) :
    ((listWrite l e d).drop s).take (e + d.length - s) = (l.drop s).take (e - s) ++ d := by
  have hlen : ((l.take e).drop s).length = e - s := by
    simp only [List.length_drop, List.length_take]
    omega
  calc ((listWrite l e d).drop s).take (e + d.length - s)
      = ((l.take e).drop s ++ (d ++ l.drop (e + d.length))).take (e + d.length - s) := by
        unfold listWrite
        rw [List.append_assoc, List.drop_append_of_le_length (by simp [List.length_take]; omega)]
    _ = ((l.take e).drop s ++ (d ++ l.drop (e + d.length))).take
          (((l.take e).drop s).length + d.length) := by
        rw [hlen]
        congr 1
        omega
    _ = (l.take e).drop s ++ (d ++ l.drop (e + d.length)).take d.length :=
        List.take_append d.length
    _ = (l.take e).drop s ++ d := by rw [List.take_left]
    _ = (l.drop s).take (e - s) ++ d := by rw [List.drop_take]

/-! ## Helper lemmas: reserve and push -/

theorem grow_capacity_fuel_le (fuel : Nat) :
    ∀ cap e x : Nat, cap ≤ grow_capacity_fuel fuel cap e x := by
  induction fuel with
  | zero => intro cap e x; exact Nat.le_refl _
  | succ n ih =>
    intro cap e x
    simp only [grow_capacity_fuel]
    split
    · exact Nat.le_trans (by omega) (ih (cap * 2) e x)
    · exact Nat.le_refl _

theorem grow_capacity_fuel_spec (fuel : Nat) : ∀ cap e x : Nat, 0 < cap → 0 < x →
    e + x ≤ cap * 2 ^ fuel → e + x ≤ grow_capacity_fuel fuel cap e x := by
  induction fuel with
  | zero => intro cap e x _ _ h; simpa [grow_capacity_fuel] using h
  | succ n ih =>
    intro cap e x hc hx h
    simp only [grow_capacity_fuel]
    split
    · apply ih (cap * 2) e x (by omega) hx
      calc e + x ≤ cap * 2 ^ (n + 1) := h
        _ = cap * 2 * 2 ^ n := by ring
    · omega

theorem grow_capacity_spec (cap e x : Nat) (hc : 0 < cap) (hx : 0 < x) :
    e + x ≤ grow_capacity cap e x ∧ cap ≤ grow_capacity cap e x := by
  refine ⟨?_, grow_capacity_fuel_le _ _ _ _⟩
  apply grow_capacity_fuel_spec _ _ _ _ hc hx
  have h1 : e + x < 2 ^ (e + x) := Nat.lt_two_pow _
  have h2 : 2 ^ (e + x) ≤ cap * 2 ^ (e + x) := Nat.le_mul_of_pos_left _ hc
  omega

theorem expbuf_reserve_spec (b : expbuf_t) (extra : Nat) (h : expbuf_wf b) :
    expbuf_wf (expbuf_reserve b extra) ∧
    (expbuf_reserve b extra).start = b.start ∧
    (expbuf_reserve b extra).end_ = b.end_ ∧
    b.end_ + extra ≤ (expbuf_reserve b extra).capacity ∧
    expbuf_live (expbuf_reserve b extra) = expbuf_live b := by
  obtain ⟨h1, h2, h3⟩ := h
  simp only [expbuf_reserve]
  split
  next hle =>
    exact ⟨⟨h1, h2, h3⟩, rfl, rfl, by omega, rfl⟩
  next hgt =>
    have hx : 0 < extra := by omega
    have hc0 : 0 < (if b.capacity = 0 then 4096 else b.capacity) := by split <;> omega
    have hcle : b.capacity ≤ (if b.capacity = 0 then 4096 else b.capacity) := by split <;> omega
    obtain ⟨hg1, hg2⟩ :=
      grow_capacity_spec (if b.capacity = 0 then 4096 else b.capacity) b.end_ extra hc0 hx
    refine ⟨⟨h1, ?_, ?_⟩, rfl, rfl, ?_, ?_⟩
    · try dsimp only
      omega
    · try dsimp only
      simp only [List.length_append, List.length_replicate]
      omega
    · try dsimp only
      omega
    · simp only [expbuf_live, listRead, expbuf_size]
      rw [List.drop_append_of_le_length (by omega),
        List.take_append_of_le_length (by simp only [List.length_drop]; omega)]

theorem expbuf_push_raw_spec (b : expbuf_t) (d : List Nat) (h : expbuf_wf b) :
    expbuf_wf (expbuf_push_raw b d) ∧
    (expbuf_push_raw b d).start = b.start ∧
    (expbuf_push_raw b d).end_ = b.end_ + d.length ∧
    expbuf_live (expbuf_push_raw b d) = expbuf_live b ++ d := by
  obtain ⟨hw, hs, he, hcap, hlive⟩ := expbuf_reserve_spec b d.length h
  obtain ⟨h1, h2, h3⟩ := hw
  simp only [expbuf_push_raw]
  refine ⟨⟨?_, ?_, ?_⟩, ?_, ?_, ?_⟩
  · try dsimp only
    omega
  · try dsimp only
    omega
  · try dsimp only
    rw [listWrite_length _ _ _ (by omega)]
    omega
  · try dsimp only
    omega
  · try dsimp only
    omega
  · have hw2 := listWrite_live (expbuf_reserve b d.length).buf d
      (expbuf_reserve b d.length).start (expbuf_reserve b d.length).end_ h1 (by omega) (by omega)
    simp only [expbuf_live, listRead, expbuf_size] at hw2 hlive ⊢
    try dsimp only
    rw [hw2, hs, he]
    rw [hs, he] at hlive
    rw [hlive]

theorem expbuf_push_raw_fields (b : expbuf_t) (d : List Nat) :
    (expbuf_push_raw b d).start = b.start ∧ b.end_ ≤ (expbuf_push_raw b d).end_ := by
  simp only [expbuf_push_raw, expbuf_reserve]
  split
  · try dsimp only
    omega
  · try dsimp only
    omega

/-! ## Helper lemmas: the number codec -/

theorem bytesToNum_cons (a : Nat) (l : List Nat) :
    bytesToNum (a :: l) = a + 256 * bytesToNum l := rfl

theorem numToBytes_length (v : Nat) : (numToBytes v).length = 8 := by
  simp [numToBytes]

theorem bytesToNum_range_map (n : Nat) : ∀ v : Nat,
    bytesToNum ((List.range n).map fun i => v / 256 ^ i % 256) = v % 256 ^ n := by
  induction n with
  | zero => intro v; simp [bytesToNum, Nat.mod_one]
  | succ k ih =>
    intro v
    rw [List.range_succ_eq_map]
    simp only [List.map_cons, List.map_map]
    have hmap : (List.range k).map ((fun i => v / 256 ^ i % 256) ∘ (· + 1)) =
        (List.range k).map fun i => (v / 256) / 256 ^ i % 256 := by
      apply List.map_congr_left
      intro i _
      simp only [Function.comp]
      rw [Nat.div_div_eq_div_mul, pow_succ, mul_comm (256 ^ i) 256]
    rw [hmap, bytesToNum_cons, ih (v / 256)]
    rw [pow_zero, Nat.div_one, pow_succ, mul_comm (256 ^ k) 256, Nat.mod_mul]

theorem bytesToNum_numToBytes (v : Nat) : bytesToNum (numToBytes v) = v % 2 ^ 64 := by
  have h := bytesToNum_range_map 8 v
  simp only [numToBytes]
  rw [h]
  norm_num

/-! ## Helper lemmas: shifting -/

theorem expbuf_shift_num_fail (b : expbuf_t) (h : expbuf_size b < 8) :
    expbuf_shift_num b = (none, b) := by
  simp [expbuf_shift_num, h]

theorem expbuf_shift_num_encode (b : expbuf_t) (v : Nat) (rest : List Nat) (h : expbuf_wf b)
    (hl : expbuf_live b = numToBytes v ++ rest) (hv : v < 2 ^ 64) :
    expbuf_shift_num b = (some v, { b with start := b.start + 8 }) ∧
    expbuf_wf { b with start := b.start + 8 } ∧
    expbuf_live { b with start := b.start + 8 } = rest := by
  have hlen : (expbuf_live b).length = expbuf_size b := expbuf_live_length b h
  rw [hl] at hlen
  simp only [List.length_append, numToBytes_length] at hlen
  have hsz : 8 ≤ expbuf_size b := by omega
  have hadv : b.start + 8 ≤ b.end_ := by
    obtain ⟨h1, h2, h3⟩ := h
    simp only [expbuf_size] at hsz
    omega
  have hread : listRead b.buf b.start 8 = numToBytes v := by
    have htk : (expbuf_live b).take 8 = numToBytes v := by
      rw [hl, List.take_append_of_le_length (le_of_eq (numToBytes_length v).symm),
        List.take_of_length_le (le_of_eq (numToBytes_length v))]
    simp only [expbuf_live, listRead, expbuf_size] at htk
    rw [List.take_take] at htk
    have hmin : min 8 (b.end_ - b.start) = 8 := by
      simp only [expbuf_size] at hsz
      omega
    rw [hmin] at htk
    simp only [listRead]
    exact htk
  refine ⟨?_, expbuf_wf_advance b 8 h hadv, ?_⟩
  · rw [expbuf_shift_num, if_neg (by omega)]
    rw [hread, bytesToNum_numToBytes, Nat.mod_eq_of_lt hv]
  · rw [expbuf_live_advance b 8 h hadv, hl,
      show (8:Nat) = (numToBytes v).length from (numToBytes_length v).symm, List.drop_left]

theorem memchr0_append (s rest : List Nat) (h : (0:Nat) ∉ s) :
    memchr0 (s ++ 0 :: rest) = some s.length := by
  induction s with
  | nil => simp [memchr0]
  | cons a t ih =>
    simp only [List.mem_cons, not_or] at h
    have ha : ¬(a = 0) := fun hc => h.1 hc.symm
    simp [memchr0, ha, ih h.2]

theorem memchr0_lt_length (l : List Nat) : ∀ i : Nat, memchr0 l = some i → i < l.length := by
  induction l with
  | nil => intro i h; simp [memchr0] at h
  | cons a t ih =>
    intro i h
    by_cases ha : a = 0
    · have hi : i = 0 := by simpa [memchr0, ha] using h.symm
      simp only [hi, List.length_cons]
      omega
    · simp only [memchr0, if_neg ha] at h
      cases hm : memchr0 t with
      | none => rw [hm] at h; simp at h
      | some j =>
        rw [hm] at h
        have hj : j + 1 = i := by simpa using h
        have := ih j hm
        simp only [List.length_cons]
        omega

theorem takeWhile_of_not_mem_zero (s : List Nat) (h : (0:Nat) ∉ s) :
    s.takeWhile (fun c => c != 0) = s := by
  induction s with
  | nil => rfl
  | cons a t ih =>
    simp only [List.mem_cons, not_or] at h
    have ha : a ≠ 0 := fun hc => h.1 hc.symm
    simp [List.takeWhile_cons, ha, ih h.2]

theorem not_mem_zero_takeWhile (s : List Nat) :
    (0:Nat) ∉ s.takeWhile (fun c => c != 0) := by
  intro hmem
  have := List.mem_takeWhile_imp hmem
  simp at this

theorem expbuf_shift_str_spec (b : expbuf_t) (s rest : List Nat) (h : expbuf_wf b)
    (hs : (0:Nat) ∉ s) (hl : expbuf_live b = s ++ 0 :: rest) :
    expbuf_shift_str b = (some s, { b with start := b.start + (s.length + 1) }) ∧
    expbuf_wf { b with start := b.start + (s.length + 1) } ∧
    expbuf_live { b with start := b.start + (s.length + 1) } = rest := by
  have hlen : (expbuf_live b).length = expbuf_size b := expbuf_live_length b h
  rw [hl] at hlen
  simp only [List.length_append, List.length_cons] at hlen
  have hadv : b.start + (s.length + 1) ≤ b.end_ := by
    obtain ⟨h1, h2, h3⟩ := h
    simp only [expbuf_size] at hlen
    omega
  have hmc : memchr0 (expbuf_live b) = some s.length := by
    rw [hl]
    exact memchr0_append s rest hs
  have hread : listRead b.buf b.start s.length = s := by
    have hsz : s.length ≤ expbuf_size b := by omega
    have htk : (expbuf_live b).take s.length = s := by
      rw [hl, List.take_append_of_le_length (Nat.le_refl _), List.take_length]
    simp only [expbuf_live, listRead, expbuf_size] at htk
    rw [List.take_take] at htk
    have hmin : min s.length (b.end_ - b.start) = s.length := by
      simp only [expbuf_size] at hsz
      omega
    rw [hmin] at htk
    simp only [listRead]
    exact htk
  refine ⟨?_, expbuf_wf_advance b (s.length + 1) h hadv, ?_⟩
  · rw [expbuf_shift_str, hmc]
    dsimp only
    rw [hread]
    have hba : b.start + s.length + 1 = b.start + (s.length + 1) := by omega
    rw [hba]
  · have := expbuf_live_advance b (s.length + 1) h hadv
    rw [this, hl]
    rw [show s ++ 0 :: rest = (s ++ [0]) ++ rest by simp]
    rw [show s.length + 1 = (s ++ [0]).length by simp, List.drop_left]

theorem expbuf_shift_bytes_spec (b : expbuf_t) (p rest : List Nat) (h : expbuf_wf b)
    (hp : p.length < 2 ^ 64) (hl : expbuf_live b = numToBytes p.length ++ (p ++ rest)) :
    (expbuf_shift_bytes b).1 = some p ∧
    expbuf_wf (expbuf_shift_bytes b).2 ∧
    expbuf_live (expbuf_shift_bytes b).2 = rest := by
  obtain ⟨hnum, hwf1, hlive1⟩ := expbuf_shift_num_encode b p.length (p ++ rest) h hl hp
  have hlen1 : (expbuf_live { b with start := b.start + 8 }).length =
      expbuf_size { b with start := b.start + 8 } := expbuf_live_length _ hwf1
  rw [hlive1] at hlen1
  simp only [List.length_append] at hlen1
  have hszeq : expbuf_size { b with start := b.start + 8 } = b.end_ - (b.start + 8) := by
    simp [expbuf_size]
  have hlen2 : p.length + rest.length = b.end_ - (b.start + 8) := by rw [← hszeq]; exact hlen1
  obtain ⟨hw1, hw2, hw3⟩ := hwf1
  dsimp only at hw1
  have hsz : ¬(expbuf_size { b with start := b.start + 8 } < p.length) := by
    rw [hszeq]
    omega
  have hadv : ({ b with start := b.start + 8 } : expbuf_t).start + p.length ≤
      ({ b with start := b.start + 8 } : expbuf_t).end_ := by
    dsimp only
    omega
  have hread : listRead b.buf (b.start + 8) p.length = p := by
    have htk : (expbuf_live { b with start := b.start + 8 }).take p.length = p := by
      rw [hlive1, List.take_append_of_le_length (Nat.le_refl _), List.take_length]
    simp only [expbuf_live, listRead, expbuf_size] at htk
    try dsimp only at htk
    rw [List.take_take] at htk
    have hmin : min p.length (b.end_ - (b.start + 8)) = p.length := by omega
    rw [hmin] at htk
    simp only [listRead]
    exact htk
  have hwf1 : expbuf_wf { b with start := b.start + 8 } := ⟨hw1, hw2, hw3⟩
  rw [expbuf_shift_bytes, hnum]
  try dsimp only
  rw [if_neg hsz]
  refine ⟨by rw [hread], ?_, ?_⟩
  · exact expbuf_wf_advance { b with start := b.start + 8 } p.length hwf1 hadv
  · have hla := expbuf_live_advance { b with start := b.start + 8 } p.length hwf1 hadv
    rw [hlive1, List.drop_left] at hla
    exact hla

/-! ## Helper lemmas: the typed push operations -/

theorem expbuf_push_num_spec (b : expbuf_t) (v : Nat) (h : expbuf_wf b) :
    expbuf_wf (expbuf_push_num b v) ∧
    expbuf_live (expbuf_push_num b v) = expbuf_live b ++ numToBytes v := by
  obtain ⟨hw, _, _, hl⟩ := expbuf_push_raw_spec b (numToBytes v) h
  exact ⟨hw, hl⟩

theorem expbuf_push_str_spec (b : expbuf_t) (s : List Nat) (h : expbuf_wf b) :
    expbuf_wf (expbuf_push_str b s) ∧
    expbuf_live (expbuf_push_str b s) =
      expbuf_live b ++ (s.takeWhile (fun c => c != 0) ++ [0]) := by
  obtain ⟨hw, _, _, hl⟩ := expbuf_push_raw_spec b (s.takeWhile (fun c => c != 0) ++ [0]) h
  exact ⟨hw, hl⟩

theorem expbuf_push_bytes_spec (b : expbuf_t) (p : List Nat) (h : expbuf_wf b) :
    expbuf_wf (expbuf_push_bytes b p) ∧
    expbuf_live (expbuf_push_bytes b p) =
      expbuf_live b ++ (numToBytes p.length ++ p) := by
  obtain ⟨hw1, hl1⟩ := expbuf_push_num_spec b p.length h
  obtain ⟨hw2, _, _, hl2⟩ := expbuf_push_raw_spec (expbuf_push_num b p.length) p hw1
  refine ⟨hw2, ?_⟩
  rw [expbuf_push_bytes, hl2, hl1, List.append_assoc]

theorem expbuf_deliver_spec (b : expbuf_t) :
    expbuf_wf (expbuf_deliver b) ∧ expbuf_live (expbuf_deliver b) = expbuf_live b := by
  obtain ⟨hw, _, _, hl⟩ := expbuf_push_raw_spec emptyExpbuf (expbuf_live b) expbuf_wf_empty
  rw [expbuf_live_empty, List.nil_append] at hl
  exact ⟨hw, hl⟩

/-! ## Helper lemmas: round trip at the atom level -/

theorem pushAtom_spec (b : expbuf_t) (a : Atom) (h : expbuf_wf b) (hv : validAtom a = true) :
    expbuf_wf (pushAtom b a) ∧ expbuf_live (pushAtom b a) = expbuf_live b ++ encodeAtom a := by
  cases a with
  | num v => simpa [pushAtom, encodeAtom] using expbuf_push_num_spec b v h
  | str s =>
    have hns : (0:Nat) ∉ s := by simpa [validAtom] using hv
    have hsp := expbuf_push_str_spec b s h
    rw [takeWhile_of_not_mem_zero s hns] at hsp
    simpa [pushAtom, encodeAtom] using hsp
  | bytes p => simpa [pushAtom, encodeAtom] using expbuf_push_bytes_spec b p h

theorem pushAtoms_spec (as : List Atom) : ∀ b : expbuf_t, expbuf_wf b →
    (∀ a ∈ as, validAtom a = true) →
    expbuf_wf (pushAtoms b as) ∧
    expbuf_live (pushAtoms b as) = expbuf_live b ++ encodeAtoms as := by
  induction as with
  | nil =>
    intro b hb _
    refine ⟨hb, ?_⟩
    simp [pushAtoms, encodeAtoms]
  | cons a as ih =>
    intro b hb hv
    have hva : validAtom a = true := hv a (List.mem_cons_self a as)
    obtain ⟨hw1, hl1⟩ := pushAtom_spec b a hb hva
    obtain ⟨hw2, hl2⟩ := ih (pushAtom b a) hw1 (fun x hx => hv x (List.mem_cons_of_mem a hx))
    refine ⟨hw2, ?_⟩
    rw [show pushAtoms b (a :: as) = pushAtoms (pushAtom b a) as from rfl,
      hl2, hl1, encodeAtoms, List.append_assoc]

theorem shiftAtoms_spec (as : List Atom) : ∀ b : expbuf_t, expbuf_wf b →
    (∀ a ∈ as, validAtom a = true) →
    expbuf_live b = encodeAtoms as →
    (shiftAtoms b as).1 = some as ∧
    expbuf_wf (shiftAtoms b as).2 ∧
    expbuf_live (shiftAtoms b as).2 = [] := by
  induction as with
  | nil =>
    intro b hb _ hl
    exact ⟨rfl, hb, by simpa [encodeAtoms] using hl⟩
  | cons a as ih =>
    intro b hb hv hl
    have hva : validAtom a = true := hv a (List.mem_cons_self a as)
    have hvrest : ∀ x ∈ as, validAtom x = true := fun x hx => hv x (List.mem_cons_of_mem a hx)
    cases a with
    | num v =>
      have hvv : v < 2 ^ 64 := by simpa [validAtom] using hva
      have hl' : expbuf_live b = numToBytes v ++ encodeAtoms as := by
        simpa [encodeAtoms, encodeAtom] using hl
      obtain ⟨hnum, hwf1, hlive1⟩ := expbuf_shift_num_encode b v (encodeAtoms as) hb hl' hvv
      obtain ⟨ih1, ih2, ih3⟩ := ih _ hwf1 hvrest hlive1
      have hp : shiftAtoms { b with start := b.start + 8 } as =
          (some as, (shiftAtoms { b with start := b.start + 8 } as).2) := by
        rw [← ih1]
      have hstep : shiftAtoms b (Atom.num v :: as) =
          (some (Atom.num v :: as), (shiftAtoms { b with start := b.start + 8 } as).2) := by
        simp only [shiftAtoms, shiftAtom]
        rw [hnum]
        dsimp only
        rw [hp]
      rw [hstep]
      exact ⟨rfl, ih2, ih3⟩
    | str s =>
      have hns : (0:Nat) ∉ s := by simpa [validAtom] using hva
      have hl' : expbuf_live b = s ++ 0 :: encodeAtoms as := by
        rw [hl]
        simp [encodeAtoms, encodeAtom]
      obtain ⟨hstr, hwf1, hlive1⟩ := expbuf_shift_str_spec b s (encodeAtoms as) hb hns hl'
      obtain ⟨ih1, ih2, ih3⟩ := ih _ hwf1 hvrest hlive1
      have hp : shiftAtoms { b with start := b.start + (s.length + 1) } as =
          (some as, (shiftAtoms { b with start := b.start + (s.length + 1) } as).2) := by
        rw [← ih1]
      have hstep : shiftAtoms b (Atom.str s :: as) =
          (some (Atom.str s :: as),
            (shiftAtoms { b with start := b.start + (s.length + 1) } as).2) := by
        simp only [shiftAtoms, shiftAtom]
        rw [hstr]
        dsimp only
        rw [hp]
      rw [hstep]
      exact ⟨rfl, ih2, ih3⟩
    | bytes p =>
      have hvp : p.length < 2 ^ 64 := by simpa [validAtom] using hva
      have hl' : expbuf_live b = numToBytes p.length ++ (p ++ encodeAtoms as) := by
        rw [hl]
        simp [encodeAtoms, encodeAtom]
      obtain ⟨hb1, hb2, hb3⟩ := expbuf_shift_bytes_spec b p (encodeAtoms as) hb hvp hl'
      obtain ⟨ih1, ih2, ih3⟩ := ih _ hb2 hvrest hb3
      have hpair : expbuf_shift_bytes b = (some p, (expbuf_shift_bytes b).2) := by
        rw [← hb1]
      have hp : shiftAtoms (expbuf_shift_bytes b).2 as =
          (some as, (shiftAtoms (expbuf_shift_bytes b).2 as).2) := by
        rw [← ih1]
      have hstep : shiftAtoms b (Atom.bytes p :: as) =
          (some (Atom.bytes p :: as), (shiftAtoms (expbuf_shift_bytes b).2 as).2) := by
        simp only [shiftAtoms, shiftAtom]
        rw [hpair]
        dsimp only
        rw [hp]
      rw [hstep]
      exact ⟨rfl, ih2, ih3⟩

/-! ## Helper lemmas: unconditional field behaviour of the operations -/

theorem expbuf_shift_num_fields (b : expbuf_t) :
    (expbuf_shift_num b).2.end_ = b.end_ ∧ b.start ≤ (expbuf_shift_num b).2.start ∧
    (expbuf_shift_num b).2.buf = b.buf ∧ (expbuf_shift_num b).2.capacity = b.capacity := by
  rw [expbuf_shift_num]
  split
  · exact ⟨rfl, Nat.le_refl _, rfl, rfl⟩
  · refine ⟨rfl, ?_, rfl, rfl⟩
    dsimp only
    omega

theorem expbuf_shift_str_fields (b : expbuf_t) :
    (expbuf_shift_str b).2.end_ = b.end_ ∧ b.start ≤ (expbuf_shift_str b).2.start ∧
    (expbuf_shift_str b).2.buf = b.buf ∧ (expbuf_shift_str b).2.capacity = b.capacity := by
  rw [expbuf_shift_str]
  cases hm : memchr0 (expbuf_live b) with
  | none => exact ⟨rfl, Nat.le_refl _, rfl, rfl⟩
  | some i =>
    refine ⟨rfl, ?_, rfl, rfl⟩
    dsimp only
    omega

theorem expbuf_shift_bytes_fields (b : expbuf_t) :
    (expbuf_shift_bytes b).2.end_ = b.end_ ∧ b.start ≤ (expbuf_shift_bytes b).2.start ∧
    (expbuf_shift_bytes b).2.buf = b.buf ∧ (expbuf_shift_bytes b).2.capacity = b.capacity := by
  obtain ⟨h1, h2, h3, h4⟩ := expbuf_shift_num_fields b
  rw [expbuf_shift_bytes]
  cases hsn : expbuf_shift_num b with
  | mk fst snd =>
    rw [hsn] at h1 h2 h3 h4
    cases fst with
    | none => exact ⟨h1, h2, h3, h4⟩
    | some l =>
      dsimp only at h1 h2 h3 h4 ⊢
      split
      · exact ⟨h1, h2, h3, h4⟩
      · refine ⟨h1, ?_, h3, h4⟩
        dsimp only
        omega

theorem expbuf_shift_num_wf (b : expbuf_t) (h : expbuf_wf b) :
    expbuf_wf (expbuf_shift_num b).2 := by
  rw [expbuf_shift_num]
  split
  · exact h
  next hge =>
    have hadv : b.start + 8 ≤ b.end_ := by
      obtain ⟨h1, h2, h3⟩ := h
      simp only [expbuf_size] at hge
      omega
    exact expbuf_wf_advance b 8 h hadv

theorem expbuf_shift_str_wf (b : expbuf_t) (h : expbuf_wf b) :
    expbuf_wf (expbuf_shift_str b).2 := by
  rw [expbuf_shift_str]
  cases hm : memchr0 (expbuf_live b) with
  | none => exact h
  | some i =>
    have hi : i < (expbuf_live b).length := memchr0_lt_length _ i hm
    rw [expbuf_live_length b h] at hi
    have hadv : b.start + (i + 1) ≤ b.end_ := by
      obtain ⟨h1, h2, h3⟩ := h
      simp only [expbuf_size] at hi
      omega
    have hwa := expbuf_wf_advance b (i + 1) h hadv
    have heq : b.start + i + 1 = b.start + (i + 1) := by omega
    dsimp only
    rw [heq]
    exact hwa

theorem expbuf_shift_bytes_wf (b : expbuf_t) (h : expbuf_wf b) :
    expbuf_wf (expbuf_shift_bytes b).2 := by
  have hw1 := expbuf_shift_num_wf b h
  rw [expbuf_shift_bytes]
  cases hsn : expbuf_shift_num b with
  | mk fst snd =>
    rw [hsn] at hw1
    cases fst with
    | none => exact hw1
    | some l =>
      dsimp only at hw1 ⊢
      split
      next hlt => exact hw1
      next hge =>
        have hadv : snd.start + l ≤ snd.end_ := by
          obtain ⟨h1, h2, h3⟩ := hw1
          simp only [expbuf_size] at hge
          omega
        exact expbuf_wf_advance snd l hw1 hadv

/-! ## Helper lemmas: the load_key exchange -/

theorem load_key_respond_live (ok : Bool) (ki : Nat) (estr nstr errb : List Nat) (b : expbuf_t) :
    expbuf_wf (load_key_respond ok ki estr nstr errb b) ∧
    expbuf_live (load_key_respond ok ki estr nstr errb b) =
      numToBytes (if ok then 1 else 0) ++ (numToBytes ki ++
        ((estr.takeWhile (fun c => c != 0)) ++ 0 :: ((nstr.takeWhile (fun c => c != 0)) ++ 0 ::
          ((errb.takeWhile (fun c => c != 0)) ++ 0 :: [])))) := by
  obtain ⟨hw1, hl1⟩ := expbuf_push_num_spec emptyExpbuf (if ok then 1 else 0) expbuf_wf_empty
  obtain ⟨hw2, hl2⟩ := expbuf_push_num_spec _ ki hw1
  obtain ⟨hw3, hl3⟩ := expbuf_push_str_spec _ estr hw2
  obtain ⟨hw4, hl4⟩ := expbuf_push_str_spec _ nstr hw3
  obtain ⟨hw5, hl5⟩ := expbuf_push_str_spec _ errb hw4
  simp only [load_key_respond, expbuf_dispose]
  refine ⟨hw5, ?_⟩
  rw [hl5, hl4, hl3, hl2, hl1, expbuf_live_empty]
  simp [List.append_assoc]

theorem load_private_key_file_parse (b : expbuf_t) (okv ki : Nat) (e0 n0 err0 : List Nat)
    (ssl : Bool) (hwf : expbuf_wf b) (hok : okv < 2 ^ 64) (hki : ki < 2 ^ 64)
    (he : (0:Nat) ∉ e0) (hn : (0:Nat) ∉ n0) (herr : (0:Nat) ∉ err0)
    (hl : expbuf_live b =
      numToBytes okv ++ (numToBytes ki ++ (e0 ++ 0 :: (n0 ++ 0 :: (err0 ++ 0 :: []))))) :
    openssl_privsep_load_private_key_file b ssl =
      if okv ≠ 1 then some (-1, err0.take (OPENSSL_PRIVSEP_ERRBUF_SIZE - 1))
      else if ssl then some (1, [])
      else some (0, ssl_use_privatekey_failed_msg.take (OPENSSL_PRIVSEP_ERRBUF_SIZE - 1)) := by
  obtain ⟨hn1, hw1, hl1⟩ := expbuf_shift_num_encode b okv _ hwf hl hok
  obtain ⟨hn2, hw2, hl2⟩ := expbuf_shift_num_encode _ ki _ hw1 hl1 hki
  obtain ⟨hs1, hw3, hl3⟩ := expbuf_shift_str_spec _ e0 _ hw2 he hl2
  obtain ⟨hs2, hw4, hl4⟩ := expbuf_shift_str_spec _ n0 _ hw3 hn hl3
  obtain ⟨hs3, hw5, hl5⟩ := expbuf_shift_str_spec _ err0 _ hw4 herr hl4
  rw [openssl_privsep_load_private_key_file, hn1]
  dsimp only
  rw [hn2]
  dsimp only
  rw [hs1]
  dsimp only
  rw [hs2]
  dsimp only
  rw [hs3]

theorem load_key_exchange_spec (fsys : List Nat → PemResult) (keys : List RSAKey) (fn : List Nat)
    (ssl_ok : Bool) (hfn : (0:Nat) ∉ fn) (hk : keys.length < 2 ^ 64) :
    load_key_exchange fsys keys fn ssl_ok =
      match fsys fn with
      | PemResult.openFailed em =>
        (some (-1, (((em.take (OPENSSL_PRIVSEP_ERRBUF_SIZE - 1)).takeWhile
            (fun c => c != 0)).take (OPENSSL_PRIVSEP_ERRBUF_SIZE - 1))), keys)
      | PemResult.parseFailed => (some (-1, failed_to_parse_msg), keys)
      | PemResult.ok rsa =>
        ((if ssl_ok then some (1, []) else
          some (0, ssl_use_privatekey_failed_msg.take (OPENSSL_PRIVSEP_ERRBUF_SIZE - 1))),
         keys ++ [rsa]) := by
  obtain ⟨hw0, hl0⟩ := expbuf_push_str_spec emptyExpbuf load_key_cmd expbuf_wf_empty
  rw [expbuf_live_empty, List.nil_append, takeWhile_of_not_mem_zero _ (by decide)] at hl0
  obtain ⟨hw1, hl1⟩ :=
    expbuf_push_str_spec (expbuf_push_str emptyExpbuf load_key_cmd) fn hw0
  rw [hl0, takeWhile_of_not_mem_zero fn hfn] at hl1
  obtain ⟨hwD, hlD⟩ :=
    expbuf_deliver_spec (expbuf_push_str (expbuf_push_str emptyExpbuf load_key_cmd) fn)
  rw [hl1] at hlD
  have hshape : expbuf_live (expbuf_deliver
      (expbuf_push_str (expbuf_push_str emptyExpbuf load_key_cmd) fn)) =
      load_key_cmd ++ 0 :: (fn ++ [0]) := by
    rw [hlD]
    simp
  obtain ⟨hs1, hwd1, hld1⟩ :=
    expbuf_shift_str_spec _ load_key_cmd (fn ++ [0]) hwD (by decide) hshape
  simp only [load_key_exchange]
  rw [hs1]
  dsimp only
  rw [if_pos rfl]
  obtain ⟨hs2, hwd2, hld2⟩ := expbuf_shift_str_spec _ fn [] hwd1 hfn hld1
  cases hf : fsys fn with
  | openFailed em =>
    simp only [load_key_stub]
    rw [hs2]
    dsimp only
    rw [hf]
    dsimp only
    rw [if_pos rfl]
    obtain ⟨hwR, hlR⟩ := load_key_respond_live false SIZE_MAX [] []
      (em.take (OPENSSL_PRIVSEP_ERRBUF_SIZE - 1)) _
    obtain ⟨hwDD, hlDD⟩ := expbuf_deliver_spec (load_key_respond false SIZE_MAX [] []
      (em.take (OPENSSL_PRIVSEP_ERRBUF_SIZE - 1)) _)
    rw [hlR] at hlDD
    have hparse := load_private_key_file_parse _ 0 SIZE_MAX [] []
      ((em.take (OPENSSL_PRIVSEP_ERRBUF_SIZE - 1)).takeWhile (fun c => c != 0)) ssl_ok hwDD
      (by norm_num) (by simp [SIZE_MAX]) (by simp) (by simp)
      (not_mem_zero_takeWhile _) (by simpa using hlDD)
    rw [hparse, if_pos (by omega)]
  | parseFailed =>
    simp only [load_key_stub]
    rw [hs2]
    dsimp only
    rw [hf]
    dsimp only
    rw [if_pos rfl]
    obtain ⟨hwR, hlR⟩ := load_key_respond_live false SIZE_MAX [] [] failed_to_parse_msg _
    obtain ⟨hwDD, hlDD⟩ :=
      expbuf_deliver_spec (load_key_respond false SIZE_MAX [] [] failed_to_parse_msg _)
    rw [hlR] at hlDD
    have hparse := load_private_key_file_parse _ 0 SIZE_MAX [] []
      (failed_to_parse_msg.takeWhile (fun c => c != 0)) ssl_ok hwDD
      (by norm_num) (by simp [SIZE_MAX]) (by simp) (by simp)
      (not_mem_zero_takeWhile _) (by simpa using hlDD)
    rw [hparse, if_pos (by omega)]
    have htw : failed_to_parse_msg.takeWhile (fun c => c != 0) = failed_to_parse_msg := by decide
    have htk : failed_to_parse_msg.take (OPENSSL_PRIVSEP_ERRBUF_SIZE - 1) =
        failed_to_parse_msg := by decide
    rw [htw, htk]
  | ok rsa =>
    simp only [load_key_stub]
    rw [hs2]
    dsimp only
    rw [hf]
    dsimp only
    rw [if_pos rfl]
    obtain ⟨hwR, hlR⟩ :=
      load_key_respond_live true (daemon_set_rsa keys rsa).1 rsa.e_hex rsa.n_hex [] _
    obtain ⟨hwDD, hlDD⟩ := expbuf_deliver_spec
      (load_key_respond true (daemon_set_rsa keys rsa).1 rsa.e_hex rsa.n_hex [] _)
    rw [hlR] at hlDD
    have hki : (daemon_set_rsa keys rsa).1 < 2 ^ 64 := by
      simpa [daemon_set_rsa] using hk
    have hparse := load_private_key_file_parse _ 1 (daemon_set_rsa keys rsa).1
      (rsa.e_hex.takeWhile (fun c => c != 0)) (rsa.n_hex.takeWhile (fun c => c != 0))
      ([].takeWhile (fun c => c != 0)) ssl_ok hwDD
      (by norm_num) hki (not_mem_zero_takeWhile _) (not_mem_zero_takeWhile _)
      (not_mem_zero_takeWhile _) (by simpa using hlDD)
    rw [hparse, if_neg (by omega)]
    simp [daemon_set_rsa]

/-! ## Claim theorems -/

/-- C6: dispose scrubs before release — for every well-formed expanding buffer,
every live payload byte (the whole region from `start` to `end`), and in fact
every byte of the allocated capacity, reads as zero in the backing memory after
`expbuf_dispose` has run `OPENSSL_cleanse` over it, so no payload byte survives
dispose. -/
theorem c6_dispose_scrubs_backing (b : expbuf_t) (h : expbuf_wf b) :
    (∀ i, b.start ≤ i → i < b.end_ → (expbuf_dispose_backing b)[i]? = some 0) ∧
    (∀ i, i < b.capacity → (expbuf_dispose_backing b)[i]? = some 0) := by
  obtain ⟨h1, h2, h3⟩ := h
  have hcap : ∀ i, i < b.capacity → (expbuf_dispose_backing b)[i]? = some 0 := by
    intro i hi
    rw [expbuf_dispose_backing, if_pos (by omega), OPENSSL_cleanse]
    rw [List.getElem?_append]
    simp [List.length_replicate, hi]
  exact ⟨fun i _ hi => hcap i (by omega), hcap⟩

/-- A concrete well-formed buffer holding payload bytes `[4, 5]`. -/
def c6_buf : expbuf_t := { buf := [3, 4, 5], start := 1, end_ := 3, capacity := 3 }

/-- Witness for C6 at a concrete buffer: the payload byte at offset 1 reads
as zero after dispose. -/
theorem c6_dispose_scrubs_backing_witness : (expbuf_dispose_backing c6_buf)[1]? = some 0 :=
  (c6_dispose_scrubs_backing c6_buf (by decide)).1 1 (by decide) (by decide)

/-- C7: codec round trip — for every finite sequence of atoms mixing `size_t`
numbers, NUL-free strings, and byte blobs, pushing them all into an empty
buffer with `push_num`/`push_str`/`push_bytes` and then shifting them back in
the same order with the matching `shift_num`/`shift_str`/`shift_bytes`
succeeds, yields values equal to those pushed, and leaves live size zero. -/
theorem c7_codec_round_trip (as : List Atom) (hv : ∀ a ∈ as, validAtom a = true) :
    (shiftAtoms (pushAtoms emptyExpbuf as) as).1 = some as ∧
    expbuf_size (shiftAtoms (pushAtoms emptyExpbuf as) as).2 = 0 := by
  obtain ⟨hw1, hl1⟩ := pushAtoms_spec as emptyExpbuf expbuf_wf_empty hv
  rw [expbuf_live_empty, List.nil_append] at hl1
  obtain ⟨h1, h2, h3⟩ := shiftAtoms_spec as _ hw1 hv hl1
  refine ⟨h1, ?_⟩
  have hlen := expbuf_live_length _ h2
  rw [h3] at hlen
  simpa using hlen.symm

/-- A concrete mixed atom sequence for the C7 witness. -/
def c7_atoms : List Atom := [Atom.num 7, Atom.str [104, 105], Atom.bytes [0, 255], Atom.num 0]

/-- Witness for C7 on a concrete mixed zero-containing sequence. -/
theorem c7_codec_round_trip_witness :
    (shiftAtoms (pushAtoms emptyExpbuf c7_atoms) c7_atoms).1 = some c7_atoms ∧
    expbuf_size (shiftAtoms (pushAtoms emptyExpbuf c7_atoms) c7_atoms).2 = 0 :=
  c7_codec_round_trip c7_atoms (by decide)

/-- C8: buffer offset invariant — every buffer reachable from the empty buffer
by reserve, push, shift and dispose operations satisfies
`base ≤ start ≤ end ≤ base + capacity` (with the allocation really holding
`capacity` bytes), its live payload is exactly the `end - start` bytes at
`start`, every push keeps `start` and only grows `end`, and every shift keeps
`end` and only advances `start`. -/
theorem c8_buffer_offset_invariant (b : expbuf_t) (h : Reachable b) :
    expbuf_wf b ∧
    expbuf_size b = (expbuf_live b).length ∧
    (∀ v, (expbuf_push_num b v).start = b.start ∧ b.end_ ≤ (expbuf_push_num b v).end_) ∧
    (∀ s, (expbuf_push_str b s).start = b.start ∧ b.end_ ≤ (expbuf_push_str b s).end_) ∧
    (∀ p, (expbuf_push_bytes b p).start = b.start ∧ b.end_ ≤ (expbuf_push_bytes b p).end_) ∧
    ((expbuf_shift_num b).2.end_ = b.end_ ∧ b.start ≤ (expbuf_shift_num b).2.start) ∧
    ((expbuf_shift_str b).2.end_ = b.end_ ∧ b.start ≤ (expbuf_shift_str b).2.start) ∧
    ((expbuf_shift_bytes b).2.end_ = b.end_ ∧ b.start ≤ (expbuf_shift_bytes b).2.start) := by
  have hwf : expbuf_wf b := by
    induction h with
    | empty => exact expbuf_wf_empty
    | reserve b e hb ih => exact (expbuf_reserve_spec b e ih).1
    | push_num b v hb ih => exact (expbuf_push_num_spec b v ih).1
    | push_str b s hb ih => exact (expbuf_push_str_spec b s ih).1
    | push_bytes b p hb ih => exact (expbuf_push_bytes_spec b p ih).1
    | shift_num b hb ih => exact expbuf_shift_num_wf b ih
    | shift_str b hb ih => exact expbuf_shift_str_wf b ih
    | shift_bytes b hb ih => exact expbuf_shift_bytes_wf b ih
    | dispose b hb ih => exact expbuf_wf_empty
  refine ⟨hwf, (expbuf_live_length b hwf).symm, ?_, ?_, ?_, ?_, ?_, ?_⟩
  · intro v
    exact expbuf_push_raw_fields b (numToBytes v)
  · intro s
    exact expbuf_push_raw_fields b (s.takeWhile (fun c => c != 0) ++ [0])
  · intro p
    obtain ⟨ha1, ha2⟩ := expbuf_push_raw_fields b (numToBytes p.length)
    obtain ⟨hb1, hb2⟩ := expbuf_push_raw_fields (expbuf_push_num b p.length) p
    exact ⟨hb1.trans ha1, le_trans ha2 hb2⟩
  · exact ⟨(expbuf_shift_num_fields b).1, (expbuf_shift_num_fields b).2.1⟩
  · exact ⟨(expbuf_shift_str_fields b).1, (expbuf_shift_str_fields b).2.1⟩
  · exact ⟨(expbuf_shift_bytes_fields b).1, (expbuf_shift_bytes_fields b).2.1⟩

/-- Witness for C8: a buffer reached by a push followed by a shift satisfies
the invariant. -/
theorem c8_buffer_offset_invariant_witness :
    expbuf_wf (expbuf_shift_num (expbuf_push_num emptyExpbuf 5)).2 :=
  (c8_buffer_offset_invariant _
    (Reachable.shift_num _ (Reachable.push_num _ 5 Reachable.empty))).1

/-- C9: a failed `expbuf_shift_bytes` is not atomic — on a well-formed buffer
whose live region begins with a valid length prefix `L` but then holds fewer
than `L` bytes, `expbuf_shift_bytes` reports failure yet leaves `start`
advanced past the 8-byte length prefix (the number is consumed), unlike
`expbuf_shift_num`, which returns its argument unchanged whenever it fails. -/
theorem c9_failed_shift_bytes_not_atomic (b : expbuf_t) (L : Nat) (short : List Nat)
    (h : expbuf_wf b) (hL : L < 2 ^ 64) (hl : expbuf_live b = numToBytes L ++ short)
    (hshort : short.length < L) :
    (expbuf_shift_bytes b).1 = none ∧
    (expbuf_shift_bytes b).2 = { b with start := b.start + 8 } ∧
    (∀ c : expbuf_t, expbuf_size c < 8 → expbuf_shift_num c = (none, c)) := by
  obtain ⟨hnum, hwf1, hlive1⟩ := expbuf_shift_num_encode b L short h hl hL
  have hlen1 := expbuf_live_length _ hwf1
  rw [hlive1] at hlen1
  have hsz : expbuf_size { b with start := b.start + 8 } < L := by omega
  rw [expbuf_shift_bytes, hnum]
  dsimp only
  rw [if_pos hsz]
  exact ⟨rfl, rfl, fun c hc => expbuf_shift_num_fail c hc⟩

/-- A concrete buffer whose live region is a length prefix of 5 followed by
only two payload bytes. -/
def c9_buf : expbuf_t := { buf := numToBytes 5 ++ [1, 2], start := 0, end_ := 10, capacity := 10 }

/-- Witness for C9: on the concrete truncated buffer the failing shift has
already consumed the length prefix. -/
theorem c9_failed_shift_bytes_not_atomic_witness :
    (expbuf_shift_bytes c9_buf).1 = none ∧
    (expbuf_shift_bytes c9_buf).2 = { c9_buf with start := c9_buf.start + 8 } :=
  ⟨(c9_failed_shift_bytes_not_atomic c9_buf 5 [1, 2] (by decide) (by decide) (by decide)
      (by decide)).1,
   (c9_failed_shift_bytes_not_atomic c9_buf 5 [1, 2] (by decide) (by decide) (by decide)
      (by decide)).2.1⟩

/-- C10: dispose is idempotent and yields a reusable empty buffer — for every
buffer, `expbuf_dispose` leaves the record in the all-zero empty state (no
backing storage, capacity 0, live size 0), disposing twice equals disposing
once, and the state satisfies the buffer invariant, so the daemon handlers'
pattern of pushing response atoms into a just-disposed request buffer always
starts from a valid empty buffer. -/
theorem c10_dispose_idempotent_reusable_empty (b : expbuf_t) :
    expbuf_dispose b = emptyExpbuf ∧
    expbuf_dispose (expbuf_dispose b) = expbuf_dispose b ∧
    expbuf_wf (expbuf_dispose b) ∧
    expbuf_size (expbuf_dispose b) = 0 :=
  ⟨rfl, rfl, expbuf_wf_empty, rfl⟩

/-- C1 (code bug): the daemon's priv_dec handler does not invoke the RSA
private-decrypt primitive — `priv_encdec_stub` ignores the `func` argument it
was handed and hard-codes `RSA_private_encrypt`.  On a well-formed priv_dec
request (`from = [5]`, valid handle 0, padding 3), with primitives whose
encrypt half returns 11 and decrypt half returns 22, the response's `ret`
field is 11 (the encrypt primitive's value), not 22. -/
theorem c1_priv_dec_invokes_encrypt_primitive :
    (priv_dec_stub c1_prims [c1_key] c1_req).map (fun r => (expbuf_shift_num r.2).1) =
      some (some 11) ∧
    (c1_prims.RSA_private_encrypt 1 [5] c1_key 3).1 = 11 ∧
    (c1_prims.RSA_private_decrypt 1 [5] c1_key 3).1 = 22 := by
  exact ⟨by decide, rfl, rfl⟩

/-- C2 (code bug): on a priv_enc request whose primitive succeeds with
`ret = 256` and writes 256 output bytes, the response carries `ret = 256` but
an empty `to` blob — the stub pushes `ret == 1 ? flen : 0` bytes instead of
`ret` bytes, so the primitive's output is lost. -/
theorem c2_priv_encdec_success_response_empty :
    (priv_enc_stub c2_prims [c2_key] c2_req).map (fun r =>
        ((expbuf_shift_num r.2).1, (expbuf_shift_bytes (expbuf_shift_num r.2).2).1)) =
      some (some 256, some []) ∧
    (c2_prims.RSA_private_encrypt 256 c2_from c2_key 1).1 = 256 ∧
    ((c2_prims.RSA_private_encrypt 256 c2_from c2_key 1).2).length = 256 := by
  exact ⟨by decide, rfl, by decide⟩

/-- C4 (code bug): `daemon_get_rsa` performs no bounds check.  An in-range
index does return the stored key, but an index at or past the registry size —
including any lookup on an empty registry, whose `keys` array is NULL — reads
outside the key table (undefined behaviour) instead of returning a
"no such key" error, and a priv_dec request with such a handle reaches that
undefined read rather than the invalid-key-index error branch. -/
theorem c4_daemon_get_rsa_out_of_bounds :
    daemon_get_rsa [] 0 = ReadResult.oob ∧
    daemon_get_rsa [c4_key] 1 = ReadResult.oob ∧
    daemon_get_rsa [c4_key] 0 = ReadResult.ok c4_key ∧
    priv_dec_stub c4_prims [c4_key] c4_req = none := by
  exact ⟨rfl, rfl, rfl, by decide⟩

/-- C3 (counterexample): `load_private_key_file` does not return 0 on success
and -1 on every failure — a fully successful load returns 1, and when the
local TLS context rejects the key it returns 0. -/
theorem c3_counterexample_success_returns_one :
    (load_key_exchange (fun _ => PemResult.ok c3_key) [] c3_fn true).1 = some (1, []) ∧
    (load_key_exchange (fun _ => PemResult.ok c3_key) [] c3_fn false).1 =
      some (0, ssl_use_privatekey_failed_msg.take (OPENSSL_PRIVSEP_ERRBUF_SIZE - 1)) ∧
    (1 : Int) ≠ 0 ∧ (0 : Int) ≠ -1 := by
  refine ⟨?_, ?_, by decide, by decide⟩
  · rw [load_key_exchange_spec _ _ _ _ (by decide) (by decide)]
    simp
  · rw [load_key_exchange_spec _ _ _ _ (by decide) (by decide)]
    simp

/-- C3 (amended): `openssl_privsep_load_private_key_file` returns 1 on
success; on a daemon-reported failure (file missing, bad PEM) it returns -1
with a bounded error string in the caller's buffer; when the local TLS context
rejects the key it returns 0 with a bounded error string; no other return
value is possible. -/
theorem c3_amended_return_values (fsys : List Nat → PemResult) (keys : List RSAKey)
    (fn : List Nat) (ssl_ok : Bool) (hfn : (0:Nat) ∉ fn) (hk : keys.length < 2 ^ 64) :
    (∀ em, fsys fn = PemResult.openFailed em →
      ∃ errb, (load_key_exchange fsys keys fn ssl_ok).1 = some (-1, errb) ∧
        errb.length ≤ OPENSSL_PRIVSEP_ERRBUF_SIZE - 1) ∧
    (fsys fn = PemResult.parseFailed →
      (load_key_exchange fsys keys fn ssl_ok).1 = some (-1, failed_to_parse_msg) ∧
      failed_to_parse_msg.length ≤ OPENSSL_PRIVSEP_ERRBUF_SIZE - 1) ∧
    (∀ rsa, fsys fn = PemResult.ok rsa →
      (load_key_exchange fsys keys fn ssl_ok).1 =
        (if ssl_ok then some (1, []) else
          some (0, ssl_use_privatekey_failed_msg.take (OPENSSL_PRIVSEP_ERRBUF_SIZE - 1)))) ∧
    (∀ code errb, (load_key_exchange fsys keys fn ssl_ok).1 = some (code, errb) →
      (code = -1 ∨ code = 0 ∨ code = 1) ∧ errb.length < OPENSSL_PRIVSEP_ERRBUF_SIZE) := by
  rw [load_key_exchange_spec fsys keys fn ssl_ok hfn hk]
  refine ⟨?_, ?_, ?_, ?_⟩
  · intro em hf
    rw [hf]
    refine ⟨_, rfl, ?_⟩
    simp only [List.length_take]
    omega
  · intro hf
    rw [hf]
    exact ⟨rfl, by decide⟩
  · intro rsa hf
    rw [hf]
  · intro code errb h
    cases hf : fsys fn with
    | openFailed em =>
      rw [hf] at h
      simp only [Option.some.injEq, Prod.mk.injEq] at h
      obtain ⟨hc, he⟩ := h
      refine ⟨Or.inl hc.symm, ?_⟩
      rw [← he]
      simp only [List.length_take, OPENSSL_PRIVSEP_ERRBUF_SIZE]
      omega
    | parseFailed =>
      rw [hf] at h
      simp only [Option.some.injEq, Prod.mk.injEq] at h
      obtain ⟨hc, he⟩ := h
      refine ⟨Or.inl hc.symm, ?_⟩
      rw [← he]
      decide
    | ok rsa =>
      rw [hf] at h
      cases ssl_ok with
      | true =>
        dsimp only at h
        rw [if_pos rfl] at h
        simp only [Option.some.injEq, Prod.mk.injEq] at h
        obtain ⟨hc, he⟩ := h
        refine ⟨Or.inr (Or.inr hc.symm), ?_⟩
        rw [← he]
        decide
      | false =>
        dsimp only at h
        rw [if_neg (by decide)] at h
        simp only [Option.some.injEq, Prod.mk.injEq] at h
        obtain ⟨hc, he⟩ := h
        refine ⟨Or.inr (Or.inl hc.symm), ?_⟩
        rw [← he]
        simp only [List.length_take, OPENSSL_PRIVSEP_ERRBUF_SIZE]
        omega

/-- Witness for C3 (amended) at a concrete failing load: the bad-PEM case
returns -1 with the in-band daemon error message. -/
theorem c3_amended_return_values_witness :
    (load_key_exchange (fun _ => PemResult.parseFailed) [] [97] true).1 =
      some (-1, failed_to_parse_msg) :=
  ((c3_amended_return_values (fun _ => PemResult.parseFailed) [] [97] true (by decide)
      (by decide)).2.1 rfl).1

/-- C5 (counterexample): when the daemon loads and registers the key but the
parent's TLS context then rejects it, the call fails (returns 0 with an error
message) yet the daemon's key registry has grown from [] to [c5_key] — process
state is altered by a failing call. -/
theorem c5_counterexample_registry_grows_on_tls_reject :
    load_key_exchange (fun _ => PemResult.ok c5_key) [] c5_fn false =
      (some (0, ssl_use_privatekey_failed_msg.take (OPENSSL_PRIVSEP_ERRBUF_SIZE - 1)),
        [c5_key]) ∧
    ([c5_key] : List RSAKey) ≠ [] := by
  refine ⟨?_, by decide⟩
  rw [load_key_exchange_spec _ _ _ _ (by decide) (by decide)]
  simp

/-- C5 (amended): on daemon-reported failures (file missing, bad PEM) the
daemon's key registry is unchanged by a failing `load_private_key_file`; but
when the local TLS context rejects the key, the failing call has already grown
the registry by one — the rejected key stays registered. -/
theorem c5_amended_registry_effect (fsys : List Nat → PemResult) (keys : List RSAKey)
    (fn : List Nat) (ssl_ok : Bool) (hfn : (0:Nat) ∉ fn) (hk : keys.length < 2 ^ 64) :
    (∀ em, fsys fn = PemResult.openFailed em →
      (load_key_exchange fsys keys fn ssl_ok).2 = keys) ∧
    (fsys fn = PemResult.parseFailed →
      (load_key_exchange fsys keys fn ssl_ok).2 = keys) ∧
    (∀ rsa, fsys fn = PemResult.ok rsa → ssl_ok = false →
      (load_key_exchange fsys keys fn ssl_ok).1 =
        some (0, ssl_use_privatekey_failed_msg.take (OPENSSL_PRIVSEP_ERRBUF_SIZE - 1)) ∧
      (load_key_exchange fsys keys fn ssl_ok).2 = keys ++ [rsa]) := by
  rw [load_key_exchange_spec fsys keys fn ssl_ok hfn hk]
  refine ⟨?_, ?_, ?_⟩
  · intro em hf
    rw [hf]
  · intro hf
    rw [hf]
  · intro rsa hf hs
    rw [hf]
    subst hs
    exact ⟨rfl, rfl⟩

/-- Witness for C5 (amended) at a concrete TLS-rejected load. -/
theorem c5_amended_registry_effect_witness :
    (load_key_exchange (fun _ => PemResult.ok c5_key) [] [98] false).2 = [] ++ [c5_key] :=
  ((c5_amended_registry_effect (fun _ => PemResult.ok c5_key) [] [98] false (by decide)
      (by decide)).2.2 c5_key rfl rfl).2
